import Mathlib

/-!
# Verification of `pymatgen/io/core.py`

A shallow embedding of the module `pymatgen.io.core` (classes `InputFile`,
`InputSet`, `InputGenerator`) and proofs about it.

Python `dict`s are embedded as insertion-ordered association lists
(`List (String × α)`); `dict` assignment keeps the position of an existing
key and appends a fresh key, mirroring CPython's insertion-ordered dicts.
The embedding is pure: "the operands are not mutated" by an operation is
expressed by the operation returning a new value while its arguments are
untouched terms.
-/

namespace PmgCore

/-- First-match lookup in an association list, the semantics of `d[k]`
for a duplicate-free list (Python dicts never hold duplicate keys). -/
def alookup {κ α : Type} [DecidableEq κ] : List (κ × α) → κ → Option α
  | [], _ => none
  | (k, v) :: rest, q => if q = k then some v else alookup rest q

/-- `k in d` for an association list. -/
def hasKey {κ α : Type} [DecidableEq κ] : List (κ × α) → κ → Bool
  | [], _ => false
  | (k', _) :: rest, k => if k' = k then true else hasKey rest k

/-- Replace the value stored at key `k`, keeping the entry's position. -/
def replaceKey {κ α : Type} [DecidableEq κ] : List (κ × α) → κ → α → List (κ × α)
  | [], _, _ => []
  | (k', v') :: rest, k, v =>
    if k' = k then (k, v) :: replaceKey rest k v else (k', v') :: replaceKey rest k v

/-- `d[k] = v` on an insertion-ordered dict: an existing key keeps its
position and gets the new value; a new key is appended at the end. -/
def dictInsert {κ α : Type} [DecidableEq κ] (d : List (κ × α)) (k : κ) (v : α) :
    List (κ × α) :=
  if hasKey d k then replaceKey d k v else d ++ [(k, v)]

/-- `{**a, **b}` / `a.update(b)`: fold the entries of `b` into `a` in order. -/
def dictMerge {κ α : Type} [DecidableEq κ] (a b : List (κ × α)) : List (κ × α) :=
  b.foldl (fun acc p => dictInsert acc p.1 p.2) a

/-- `x if x is not None else y` on optional lookups: the first lookup wins
when it hits. -/
def optOr {α : Type} (x y : Option α) : Option α :=
  match x with
  | some v => some v
  | none => y

theorem alookup_append {κ α : Type} [DecidableEq κ] (l₁ l₂ : List (κ × α)) (q : κ) :
    alookup (l₁ ++ l₂) q =
      match alookup l₁ q with
      | some v => some v
      | none => alookup l₂ q := by
  induction l₁ with
  | nil => simp [alookup]
  | cons p rest ih =>
    obtain ⟨k, v⟩ := p
    by_cases h : q = k <;> simp [alookup, h, ih]

theorem alookup_eq_none {κ α : Type} [DecidableEq κ]
    (d : List (κ × α)) (q : κ) (h : q ∉ d.map Prod.fst) : alookup d q = none := by
  induction d with
  | nil => rfl
  | cons p rest ih =>
    obtain ⟨k, v⟩ := p
    have hq : ¬ (q = k) := by
      intro hqk; exact h (by simp [hqk])
    have hrest : q ∉ rest.map Prod.fst := fun hm => h (by simp [hm])
    simp [alookup, hq, ih hrest]

theorem hasKey_false_alookup {κ α : Type} [DecidableEq κ]
    (d : List (κ × α)) (k : κ) (h : hasKey d k = false) : alookup d k = none := by
  induction d with
  | nil => rfl
  | cons p rest ih =>
    obtain ⟨k', v'⟩ := p
    by_cases hk : k' = k
    · simp [hasKey, hk] at h
    · have hkk : ¬ (k = k') := fun hkk => hk hkk.symm
      simp only [hasKey, if_neg hk] at h
      simp [alookup, hkk, ih h]

theorem alookup_replaceKey {κ α : Type} [DecidableEq κ]
    (d : List (κ × α)) (k : κ) (v : α) (q : κ) :
    alookup (replaceKey d k v) q =
      if q = k then (match alookup d k with | some _ => some v | none => none)
      else alookup d q := by
  induction d with
  | nil => by_cases hq : q = k <;> simp [alookup, replaceKey, hq]
  | cons p rest ih =>
    obtain ⟨k', v'⟩ := p
    by_cases hk : k' = k
    · subst hk
      by_cases hq : q = k' <;> simp [alookup, replaceKey, hq, ih]
    · have hkk : ¬ (k = k') := fun hkk => hk hkk.symm
      by_cases hq : q = k'
      · subst hq
        have hqk : ¬ (q = k) := fun h => hk (h ▸ rfl)
        simp [alookup, replaceKey, hk, hqk]
      · by_cases hqk : q = k
        · subst hqk; simp [alookup, replaceKey, hk, hkk, hq, ih]
        · simp [alookup, replaceKey, hk, hkk, hq, hqk, ih]

theorem alookup_dictInsert {κ α : Type} [DecidableEq κ]
    (d : List (κ × α)) (k : κ) (v : α) (q : κ) :
    alookup (dictInsert d k v) q = if q = k then some v else alookup d q := by
  unfold dictInsert
  cases hmem : hasKey d k with
  | true =>
    rw [if_pos rfl, alookup_replaceKey]
    have : ∃ w, alookup d k = some w := by
      induction d with
      | nil => simp [hasKey] at hmem
      | cons p rest ih =>
        obtain ⟨k', v'⟩ := p
        by_cases hk : k' = k
        · exact ⟨v', by simp [alookup, hk.symm]⟩
        · have hkk : ¬ (k = k') := fun hkk => hk hkk.symm
          simp only [hasKey, if_neg hk] at hmem
          rcases ih hmem with ⟨w, hw⟩
          exact ⟨w, by simp [alookup, hkk, hw]⟩
    rcases this with ⟨w, hw⟩
    by_cases hq : q = k <;> simp [hq, hw]
  | false =>
    rw [if_neg (by simp), alookup_append]
    have hnone : alookup d k = none := hasKey_false_alookup d k hmem
    by_cases hq : q = k
    · subst hq; simp [hnone, alookup]
    · cases h : alookup d q with
      | some w => simp [hq]
      | none => simp [alookup, hq]

/-- Lookup in a merged dict: the right-hand dict wins whenever it has the
key (for a duplicate-free right-hand dict), otherwise the left-hand value
survives. -/
theorem alookup_dictMerge {κ α : Type} [DecidableEq κ]
    (a b : List (κ × α)) (hb : (b.map Prod.fst).Nodup) (q : κ) :
    alookup (dictMerge a b) q = optOr (alookup b q) (alookup a q) := by
  revert hb
  induction b generalizing a with
  | nil => intro hb; simp [dictMerge, alookup, optOr]
  | cons p rest ih =>
    intro hb
    obtain ⟨k, v⟩ := p
    simp only [List.map_cons, List.nodup_cons] at hb
    have hrest := ih (dictInsert a k v) hb.2
    show alookup (dictMerge (dictInsert a k v) rest) q = _
    rw [hrest]
    by_cases hq : q = k
    · subst hq
      have hnone : alookup rest q = none := alookup_eq_none rest q hb.1
      simp [hnone, alookup, alookup_dictInsert, optOr]
    · cases h : alookup rest q with
      | some w => simp [alookup, hq, h, optOr]
      | none => simp [alookup, hq, h, alookup_dictInsert, optOr]

/-!
## Values

Values stored in an `InputSet`'s `inputs` mapping and passed as `**kwargs`.
Per the class docstring, `inputs` values are strings or `InputFile`
objects.  `PyVal.file s` embeds an `InputFile` whose (subclass-provided)
`get_str` returns `s`; `InputFile.__str__` returns `get_str()`, so
`str(contents)` of a file value is that same string. `str(None)` is
`"None"`.
-/

inductive PyVal : Type where
  | str : String → PyVal
  | pynone : PyVal
  | file : String → PyVal
  deriving DecidableEq, Repr

/-- Python `str(contents)` on the values we model. -/
def strOfPyVal : PyVal → String
  | .str s => s
  | .pynone => "None"
  | .file s => s

/-!
## `InputSet` (data part)

`InputSet.__init__` stores `inputs` (the filename → contents mapping) and
the `**kwargs`; `tyName` stands for `type(self).__name__`, the name of the
concrete subclass of `InputSet` the instance belongs to (subclass
hierarchies are not modelled beyond this tag).
-/

structure InputSet : Type where
  tyName : String
  inputs : List (String × PyVal)
  kwargs : List (String × PyVal)
  deriving DecidableEq, Repr

/-- Right-hand operands of `InputSet.__or__`: a plain `dict`, an
`InputSet` instance, or any other Python value (`other`). -/
inductive OrOperand : Type where
  | dict : List (String × PyVal) → OrOperand
  | iset : InputSet → OrOperand
  | other : OrOperand
  deriving DecidableEq, Repr

/-- Result of `__or__`: a new `InputSet` or the `NotImplemented` sentinel. -/
inductive OrResult : Type where
  | ok : InputSet → OrResult
  | notImplemented : OrResult
  deriving DecidableEq, Repr

/-- `InputSet.__or__`.  A `dict` operand is first coerced via
`type(self)(other)` — the constructor of `self`'s concrete type called
with the dict as `inputs` and no kwargs.  An operand that is not an
instance of `type(self)` yields `NotImplemented`; otherwise the result is
`type(self)({**self.inputs, **other.inputs}, **self._kwargs)`. -/
def InputSet.or (a : InputSet) (o : OrOperand) : OrResult :=
  let o' : Option InputSet :=
    match o with
    | .dict d => some ⟨a.tyName, d, []⟩
    | .iset b => some b
    | .other => none
  match o' with
  | none => .notImplemented
  | some b =>
    if b.tyName = a.tyName then
      .ok ⟨a.tyName, dictMerge a.inputs b.inputs, a.kwargs⟩
    else .notImplemented

/-- Remove the entry stored at key `k` (Python `del d[k]` on a
duplicate-free dict). -/
def dictRemove {κ α : Type} [DecidableEq κ] : List (κ × α) → κ → List (κ × α)
  | [], _ => []
  | (k', v') :: rest, k =>
    if k' = k then dictRemove rest k else (k', v') :: dictRemove rest k

theorem alookup_dictRemove {κ α : Type} [DecidableEq κ]
    (d : List (κ × α)) (k q : κ) :
    alookup (dictRemove d k) q = if q = k then none else alookup d q := by
  induction d with
  | nil => by_cases hq : q = k <;> simp [alookup, dictRemove, hq]
  | cons p rest ih =>
    obtain ⟨k', v'⟩ := p
    by_cases hk : k' = k
    · subst hk
      by_cases hq : q = k'
      · subst hq; simp [alookup, dictRemove, ih]
      · simp [alookup, dictRemove, hq, ih]
    · by_cases hq : q = k'
      · subst hq
        have hqk : ¬ (q = k) := fun h => hk (h ▸ rfl)
        simp [alookup, dictRemove, hk, hqk]
      · simp [alookup, dictRemove, hk, hq, ih]

theorem keys_replaceKey {κ α : Type} [DecidableEq κ]
    (d : List (κ × α)) (k : κ) (v : α) :
    (replaceKey d k v).map Prod.fst = d.map Prod.fst := by
  induction d with
  | nil => rfl
  | cons p rest ih =>
    obtain ⟨k', v'⟩ := p
    by_cases hk : k' = k
    · subst hk; simp [replaceKey, ih]
    · simp [replaceKey, hk, ih]

theorem keys_dictInsert {κ α : Type} [DecidableEq κ]
    (d : List (κ × α)) (k : κ) (v : α) :
    (dictInsert d k v).map Prod.fst =
      if hasKey d k then d.map Prod.fst else d.map Prod.fst ++ [k] := by
  unfold dictInsert
  cases hmem : hasKey d k with
  | true => simp [keys_replaceKey]
  | false => simp

/-!
## `InputSet` container protocol

`__len__`, `__iter__`, `__getitem__`, `__setitem__`, `__delitem__` all
delegate to `self.inputs`.  A failed `__getitem__`/`__delitem__`
(`KeyError`) is embedded as `none`.
-/

/-- `InputSet.__len__`: `len(self.inputs)`. -/
def InputSet.length (s : InputSet) : Nat := s.inputs.length

/-- `InputSet.__iter__`: `iter(self.inputs)` yields the dict's keys in
insertion order. -/
def InputSet.iterKeys (s : InputSet) : List String := s.inputs.map Prod.fst

/-- `InputSet.__getitem__`: `self.inputs[key]`; `none` embeds `KeyError`. -/
def InputSet.getItem (s : InputSet) (k : String) : Option PyVal := alookup s.inputs k

/-- `InputSet.__setitem__`: `self.inputs[key] = value`. -/
def InputSet.setItem (s : InputSet) (k : String) (v : PyVal) : InputSet :=
  { s with inputs := dictInsert s.inputs k v }

/-- `InputSet.__delitem__`: `del self.inputs[key]`; `none` embeds `KeyError`. -/
def InputSet.delItem (s : InputSet) (k : String) : Option InputSet :=
  if hasKey s.inputs k then some { s with inputs := dictRemove s.inputs k } else none

/-!
## Claim theorems: union and container protocol
-/

/-- C1: for two `InputSet`s of the same concrete type, `a | b` returns a
new collection whose file mapping is `b`'s entries overlaid onto `a`'s
(`b` wins on every key collision, keys only in `a` or only in `b` are
kept) and which retains exactly `a`'s kwargs.  The embedding is pure, so
`a` and `b` themselves are untouched by the operation. -/
theorem C1_union_overlay (a b : InputSet)
    (hty : b.tyName = a.tyName) (hb : (b.inputs.map Prod.fst).Nodup) :
    InputSet.or a (.iset b) =
      .ok ⟨a.tyName, dictMerge a.inputs b.inputs, a.kwargs⟩ ∧
    ∀ k, alookup (dictMerge a.inputs b.inputs) k =
      optOr (alookup b.inputs k) (alookup a.inputs k) := by
  refine ⟨?_, fun k => alookup_dictMerge _ _ hb k⟩
  simp [InputSet.or, hty]

/-- C1 witness: the spec's own example, `a = Collection({"x": "1"})` with a
named parameter and `b = Collection({"x": "2", "y": "3"})`. -/
theorem C1_union_overlay_witness :
    InputSet.or ⟨"Collection", [("x", PyVal.str "1")], [("meta", PyVal.str "m")]⟩
        (.iset ⟨"Collection", [("x", PyVal.str "2"), ("y", PyVal.str "3")], []⟩) =
      .ok ⟨"Collection",
        dictMerge [("x", PyVal.str "1")] [("x", PyVal.str "2"), ("y", PyVal.str "3")],
        [("meta", PyVal.str "m")]⟩ :=
  (C1_union_overlay
    ⟨"Collection", [("x", PyVal.str "1")], [("meta", PyVal.str "m")]⟩
    ⟨"Collection", [("x", PyVal.str "2"), ("y", PyVal.str "3")], []⟩
    rfl (by decide)).1

/-- C7: a raw `dict` right-hand operand of `|` is first coerced into a
collection of the left operand's concrete type (constructor called with
the dict as `inputs` and no kwargs) before merging; an operand that is
neither a `dict` nor an instance of the left operand's type yields the
`NotImplemented` sentinel rather than an exception. -/
theorem C7_union_coercion :
    (∀ (a : InputSet) (d : List (String × PyVal)),
        InputSet.or a (.dict d) = InputSet.or a (.iset ⟨a.tyName, d, []⟩)) ∧
    (∀ a b : InputSet, b.tyName ≠ a.tyName →
        InputSet.or a (.iset b) = .notImplemented) ∧
    (∀ a : InputSet, InputSet.or a .other = .notImplemented) := by
  refine ⟨fun a d => rfl, fun a b h => ?_, fun a => rfl⟩
  simp [InputSet.or, h]

/-- C7 witness: an operand of a different concrete type is rejected with
`NotImplemented`. -/
theorem C7_union_coercion_witness :
    InputSet.or ⟨"VaspInputSet", [], []⟩ (.iset ⟨"QchemInputSet", [], []⟩) =
      .notImplemented :=
  C7_union_coercion.2.1 ⟨"VaspInputSet", [], []⟩ ⟨"QchemInputSet", [], []⟩ (by decide)

/-- C8: `len` equals the number of keys, iteration yields exactly the
mapping's keys in insertion order (an existing key updated in place keeps
the key sequence, a new key is appended), and item get/set/delete behave
as mutable-mapping operations on the filename → content dict. -/
theorem C8_container_protocol :
    (∀ s : InputSet, s.length = s.iterKeys.length) ∧
    (∀ (s : InputSet) (k : String) (v : PyVal), (s.setItem k v).getItem k = some v) ∧
    (∀ (s : InputSet) (k q : String) (v : PyVal), q ≠ k →
        (s.setItem k v).getItem q = s.getItem q) ∧
    (∀ (s : InputSet) (k : String) (v : PyVal),
        (s.setItem k v).iterKeys =
          if hasKey s.inputs k then s.iterKeys else s.iterKeys ++ [k]) ∧
    (∀ (s s' : InputSet) (k : String), s.delItem k = some s' →
        s'.getItem k = none ∧ ∀ q, q ≠ k → s'.getItem q = s.getItem q) := by
  refine ⟨fun s => (s.inputs.length_map Prod.fst).symm,
          fun s k v => ?_, fun s k q v hq => ?_, fun s k v => keys_dictInsert _ _ _,
          fun s s' k h => ?_⟩
  · simp [InputSet.setItem, InputSet.getItem, alookup_dictInsert]
  · simp [InputSet.setItem, InputSet.getItem, alookup_dictInsert, hq]
  · unfold InputSet.delItem at h
    by_cases hk : hasKey s.inputs k
    · rw [if_pos hk] at h
      cases h
      constructor
      · simp [InputSet.getItem, alookup_dictRemove]
      · intro q hq
        simp [InputSet.getItem, alookup_dictRemove, hq]
    · rw [if_neg hk] at h; cases h

/-- C8 witness: set, overwrite, and delete on a two-entry collection. -/
theorem C8_container_protocol_witness :
    ((⟨"InputSet", [("a", PyVal.str "1")], []⟩ : InputSet).setItem "b"
        (PyVal.str "2")).getItem "a" = some (PyVal.str "1") :=
  C8_container_protocol.2.2.1 ⟨"InputSet", [("a", PyVal.str "1")], []⟩ "b" "a"
    (PyVal.str "2") (by decide)

/-!
## `InputSet.__init__` / `__getattr__`

Attribute access needs the instance dictionary (`__dict__`): `__init__`
sets `self.inputs`, `self._kwargs`, then `self.__dict__.update(**kwargs)`.
Normal attribute lookup consults `__dict__` first and only falls back to
`__getattr__` when the name is absent there.  Attribute values are either
plain values (`AttrVal.v`) or the two dict-valued attributes set by
`__init__` (`AttrVal.dict`).
-/

inductive AttrVal : Type where
  | v : PyVal → AttrVal
  | dict : List (String × PyVal) → AttrVal
  deriving DecidableEq, Repr

/-- A single quote character, for Python `repr` of attribute names. -/
def sq : String := String.singleton (Char.ofNat 39)

/-- The message of `AttributeError(f"'{ty}' object has no attribute {key!r}")`. -/
def noAttrMsg (ty key : String) : String :=
  sq ++ ty ++ sq ++ " object has no attribute " ++ sq ++ key ++ sq

/-- A Python-level `InputSet` instance: its concrete type name and its
`__dict__`. -/
structure PyObj : Type where
  tyName : String
  attrs : List (String × AttrVal)
  deriving DecidableEq, Repr

/-- The instance produced by `InputSet.__init__(inputs, **kwargs)`:
`__dict__` holds `inputs`, `_kwargs`, then is updated with the kwargs
themselves. -/
def mkInputSetObj (ty : String) (inputs kwargs : List (String × PyVal)) : PyObj :=
  ⟨ty, dictMerge [("inputs", AttrVal.dict inputs), ("_kwargs", AttrVal.dict kwargs)]
        (kwargs.map (fun p => (p.1, AttrVal.v p.2)))⟩

/-- The body of `InputSet.__getattr__` on a well-formed instance whose
`_kwargs` attribute is the dict `kw` and whose `inputs` attribute is the
dict `inp`:

```python
if key in self._kwargs:
    return self.get(key)
raise AttributeError(f"'{type(self).__name__}' object has no attribute {key!r}")
```

`self.get(key)` is `MutableMapping.get`, which looks `key` up in
`self[key] = self.inputs[key]` and returns `None` when absent. -/
def getattrFB (ty : String) (kw inp : List (String × PyVal)) (key : String) :
    Except String AttrVal :=
  if (alookup kw key).isSome then
    .ok (.v ((alookup inp key).getD PyVal.pynone))
  else .error (noAttrMsg ty key)

/-- Python attribute lookup on an `InputSet` instance: the instance
dictionary first, then the `__getattr__` fallback.  Instances reachable
from `__init__` always carry dict-valued `_kwargs` and `inputs`
attributes; a state where either is missing or non-dict does not arise in
the claims (Python would raise there too, via unbounded recursion inside
`__getattr__` or a failed membership test). -/
def getattrObj (s : PyObj) (key : String) : Except String AttrVal :=
  match alookup s.attrs key with
  | some v => .ok v
  | none =>
    match alookup s.attrs "_kwargs" with
    | some (.dict kw) =>
      match alookup s.attrs "inputs" with
      | some (.dict inp) => getattrFB s.tyName kw inp key
      | _ => .error (noAttrMsg s.tyName key)
    | _ => .error (noAttrMsg s.tyName key)

theorem alookup_none_not_mem {κ α : Type} [DecidableEq κ]
    (d : List (κ × α)) (q : κ) (h : alookup d q = none) : q ∉ d.map Prod.fst := by
  induction d with
  | nil => simp
  | cons p rest ih =>
    obtain ⟨k, v⟩ := p
    by_cases hq : q = k
    · simp [alookup, hq] at h
    · simp only [alookup, if_neg hq] at h
      intro hm
      rcases List.mem_map.mp hm with ⟨x, hx, hxk⟩
      rcases List.mem_cons.mp hx with rfl | hx'
      · exact hq (by simp [← hxk])
      · exact (ih h) (List.mem_map.mpr ⟨x, hx', hxk⟩)

theorem alookup_dictMerge_notin {κ α : Type} [DecidableEq κ]
    (a b : List (κ × α)) (q : κ) (h : q ∉ b.map Prod.fst) :
    alookup (dictMerge a b) q = alookup a q := by
  induction b generalizing a with
  | nil => rfl
  | cons p rest ih =>
    obtain ⟨k, v⟩ := p
    have hq : ¬ (q = k) := by intro hq; exact h (by simp [hq])
    have hrest : q ∉ rest.map Prod.fst := fun hm => h (by simp [hm])
    show alookup (dictMerge (dictInsert a k v) rest) q = _
    rw [ih (dictInsert a k v) hrest, alookup_dictInsert, if_neg hq]

theorem alookup_dictMerge_cases {κ α : Type} [DecidableEq κ]
    (a b : List (κ × α)) (q : κ) (v : α)
    (h : alookup (dictMerge a b) q = some v) :
    alookup a q = some v ∨ (q, v) ∈ b := by
  induction b generalizing a with
  | nil => exact Or.inl h
  | cons p rest ih =>
    obtain ⟨k, w⟩ := p
    rcases ih (dictInsert a k w) h with h' | h'
    · rw [alookup_dictInsert] at h'
      by_cases hq : q = k
      · rw [if_pos hq] at h'
        cases h'
        exact Or.inr (by simp [hq])
      · rw [if_neg hq] at h'
        exact Or.inl h'
    · exact Or.inr (List.mem_cons_of_mem _ h')

theorem keys_map_attr (kw : List (String × PyVal)) :
    (kw.map (fun p => (p.1, AttrVal.v p.2))).map Prod.fst = kw.map Prod.fst := by
  induction kw with
  | nil => rfl
  | cons p rest ih => simp [ih]

theorem alookup_map_attr (kw : List (String × PyVal)) (key : String) :
    alookup (kw.map (fun p => (p.1, AttrVal.v p.2))) key =
      (alookup kw key).map AttrVal.v := by
  induction kw with
  | nil => rfl
  | cons p rest ih =>
    obtain ⟨k, v⟩ := p
    by_cases hq : key = k <;> simp [alookup, hq, ih]

/-- C4 counterexample: the claim says the `__getattr__` fallback returns
the stored parameter's value whenever the name is among the stored
parameters.  On `_kwargs = {"foo": "bar"}` and `inputs = {}` the fallback
returns `self.get("foo") = None`, not `"bar"`. -/
theorem C4_fallback_counterexample :
    getattrFB "InputSet" [("foo", PyVal.str "bar")] [] "foo" ≠
      Except.ok (AttrVal.v (PyVal.str "bar")) ∧
    getattrFB "InputSet" [("foo", PyVal.str "bar")] [] "foo" =
      Except.ok (AttrVal.v PyVal.pynone) := by
  constructor
  · intro h
    have h' : AttrVal.v PyVal.pynone = AttrVal.v (PyVal.str "bar") := Except.ok.inj h
    exact absurd h' (by decide)
  · rfl

/-- C4 (amended): on a freshly constructed instance, attribute lookup for
a name among the stored kwargs returns that kwarg's value (it sits in the
instance dictionary), and lookup for a name that is neither a kwarg nor
one of the two attributes set by `__init__` fails with an
`AttributeError` naming the concrete type.  The `__getattr__` fallback,
when the name is among the stored parameters, returns `self.get(name)` —
the inputs-mapping value for that name, `None` when absent — not the
stored parameter's value. -/
theorem C4_attribute_lookup (ty : String) (inp kw : List (String × PyVal))
    (key : String) :
    ((kw.map Prod.fst).Nodup → ∀ v, alookup kw key = some v →
        getattrObj (mkInputSetObj ty inp kw) key = .ok (.v v)) ∧
    (alookup kw key = none → key ≠ "inputs" → key ≠ "_kwargs" →
        getattrObj (mkInputSetObj ty inp kw) key = .error (noAttrMsg ty key)) ∧
    (∀ kw' inp' : List (String × PyVal), (alookup kw' key).isSome →
        getattrFB ty kw' inp' key = .ok (.v ((alookup inp' key).getD PyVal.pynone))) := by
  refine ⟨fun hnd v hv => ?_, fun hnone hki hkk => ?_, fun kw' inp' hsome => ?_⟩
  · have hnd' : ((kw.map (fun p => (p.1, AttrVal.v p.2))).map Prod.fst).Nodup := by
      rw [keys_map_attr]; exact hnd
    have hmerge := alookup_dictMerge
      [("inputs", AttrVal.dict inp), ("_kwargs", AttrVal.dict kw)]
      (kw.map (fun p => (p.1, AttrVal.v p.2))) hnd' key
    rw [alookup_map_attr, hv] at hmerge
    simp only [Option.map_some, optOr] at hmerge
    simp [getattrObj, mkInputSetObj, hmerge]
  · have hnotin : key ∉ (kw.map (fun p => (p.1, AttrVal.v p.2))).map Prod.fst := by
      rw [keys_map_attr]
      exact alookup_none_not_mem kw key hnone
    have hkey : alookup (dictMerge
        [("inputs", AttrVal.dict inp), ("_kwargs", AttrVal.dict kw)]
        (kw.map (fun p => (p.1, AttrVal.v p.2)))) key = none := by
      rw [alookup_dictMerge_notin _ _ _ hnotin]
      simp [alookup, hki, hkk]
    rcases h2 : alookup (dictMerge
        [("inputs", AttrVal.dict inp), ("_kwargs", AttrVal.dict kw)]
        (kw.map (fun p => (p.1, AttrVal.v p.2)))) "_kwargs" with _ | av
    · simp [getattrObj, mkInputSetObj, hkey, h2]
    · cases av with
      | v pv => simp [getattrObj, mkInputSetObj, hkey, h2]
      | dict kw'' =>
        have hkw : kw'' = kw := by
          rcases alookup_dictMerge_cases _ _ _ _ h2 with h' | h'
          · have hb : alookup
                [("inputs", AttrVal.dict inp), ("_kwargs", AttrVal.dict kw)] "_kwargs" =
                some (AttrVal.dict kw) := rfl
            rw [hb] at h'
            cases h'
            rfl
          · exfalso
            rcases List.mem_map.mp h' with ⟨p, _, hp⟩
            have hsnd := congrArg Prod.snd hp
            simp at hsnd
        rcases h3 : alookup (dictMerge
            [("inputs", AttrVal.dict inp), ("_kwargs", AttrVal.dict kw)]
            (kw.map (fun p => (p.1, AttrVal.v p.2)))) "inputs" with _ | av'
        · simp [getattrObj, mkInputSetObj, hkey, h2, h3]
        · cases av' with
          | v pv => simp [getattrObj, mkInputSetObj, hkey, h2, h3]
          | dict inp'' =>
            have hfb : getattrFB ty kw'' inp'' key = .error (noAttrMsg ty key) := by
              rw [hkw]
              simp [getattrFB, hnone]
            simp [getattrObj, mkInputSetObj, hkey, h2, h3, hfb]
  · simp [getattrFB, hsome]

/-- C4 witness: an instance constructed with `foo="bar"` answers `"bar"`
for attribute `foo`. -/
theorem C4_attribute_lookup_witness :
    getattrObj (mkInputSetObj "InputSet" [] [("foo", PyVal.str "bar")]) "foo" =
      .ok (.v (PyVal.str "bar")) :=
  (C4_attribute_lookup "InputSet" [] [("foo", PyVal.str "bar")] "foo").1
    (by decide) (PyVal.str "bar") rfl

/-!
## `InputFile` and the filesystem

`InputFile` subclasses provide `get_str`; the base class is modelled by a
record carrying the result of that abstract method.  Files on disk are
`path ↦ FData`: either text written through `monty.io.zopen` (which also
records which transparent compression the path's extension selected) or a
zip archive of named members.
-/

structure InputFile : Type where
  get_str : String
  deriving DecidableEq, Repr

/-- `InputFile.__str__`: `return self.get_str()`. -/
def InputFile.str (f : InputFile) : String := f.get_str

/-- Lowercased extension of a filename (`pathlib.Path(...).suffix.lower()`). -/
def lowerExt (name : String) : String :=
  let parts := name.splitOn "."
  if parts.length ≤ 1 then "" else "." ++ (parts.getLastD "").toLower

/-- Modelled from the spec: `monty.io.zopen` (an external dependency whose
source is not part of this repository) transparently selects a compression
from the lowercased filename extension — `.z`/`.gz` → gzip, `.bz2` →
bzip2, `.xz`/`.lzma` → lzma, anything else plain text. -/
def compressionOf (name : String) : String :=
  let ext := lowerExt name
  if ext = ".z" || ext = ".gz" then "gz"
  else if ext = ".bz2" then "bz2"
  else if ext = ".xz" || ext = ".lzma" then "lzma"
  else "plain"

/-- On-disk content of one file. -/
inductive FData : Type where
  | text : String → String → FData
  | archive : List (String × FData) → FData

/-- `zopen(path, mode="wt", encoding="utf-8")` followed by
`file.write(data)`: create or overwrite `path` with `data`, compressed as
the extension dictates. -/
def zopenWrite (fs : List (String × FData)) (path data : String) :
    List (String × FData) :=
  dictInsert fs path (.text data (compressionOf path))

/-- `InputFile.write_file(filename)`: writes `self.get_str()` through
`zopen(..., "wt")`. -/
def InputFile.write_file (f : InputFile) (path : String)
    (fs : List (String × FData)) : List (String × FData) :=
  zopenWrite fs path f.get_str

/-- C9: `str(x)` is exactly `x.get_str()`, and `x.write_file(path)` writes
exactly the `get_str` string to `path` in text mode with the
transparent compression selected by the path's extension, leaving every
other path untouched. -/
theorem C9_str_and_write_file (f : InputFile) (path : String)
    (fs : List (String × FData)) :
    f.str = f.get_str ∧
    alookup (f.write_file path fs) path =
      some (.text f.get_str (compressionOf path)) ∧
    ∀ q, q ≠ path → alookup (f.write_file path fs) q = alookup fs q := by
  refine ⟨rfl, ?_, fun q hq => ?_⟩
  · simp [InputFile.write_file, zopenWrite, alookup_dictInsert]
  · simp [InputFile.write_file, zopenWrite, alookup_dictInsert, hq]

/-- C9 witness: writing an `INCAR.gz` records the gzip compression and the
exact rendered string; an unrelated path is untouched. -/
theorem C9_str_and_write_file_witness :
    alookup ((InputFile.mk "data").write_file "INCAR.gz" []) "POSCAR" =
      alookup ([] : List (String × FData)) "POSCAR" :=
  (C9_str_and_write_file (InputFile.mk "data") "INCAR.gz" []).2.2 "POSCAR" (by decide)

/-!
## Base implementations that raise `NotImplementedError`

Each abstract operation's base body is a single `raise NotImplementedError`
with an f-string naming the calling concrete type.  Raising is embedded as
`Except.error` carrying the exception message.
-/

/-- `InputFile.from_str` base classmethod:
`raise NotImplementedError(f"from_str has not been implemented in {cls.__name__}")`. -/
def InputFile.from_str (clsName contents : String) : Except String InputFile :=
  .error ("from_str has not been implemented in " ++ clsName)

/-- `InputSet.from_directory` base classmethod:
`raise NotImplementedError(f"from_directory has not been implemented in {cls.__name__}")`. -/
def InputSet.from_directory (clsName directory : String) : Except String InputSet :=
  .error ("from_directory has not been implemented in " ++ clsName)

/-- `InputSet.validate` base method:
`raise NotImplementedError(f".validate() has not been implemented in {type(self).__name__}")`. -/
def InputSet.validate (s : InputSet) : Except String Bool :=
  .error (".validate() has not been implemented in " ++ s.tyName)

/-- An `InputGenerator` instance, identified by its concrete type name. -/
structure InputGenerator : Type where
  tyName : String
  deriving DecidableEq, Repr

/-- `InputGenerator.get_input_set` base method:
`raise NotImplementedError(f"get_input_set has not been implemented in {type(self).__name__}")`. -/
def InputGenerator.get_input_set (g : InputGenerator) : Except String InputSet :=
  .error ("get_input_set has not been implemented in " ++ g.tyName)

/-- C5: the base `from_str`, `from_directory`, `validate` and
`get_input_set` each fail with a `NotImplementedError` whose message names
the calling concrete type; none returns a default result — in particular
`validate` never answers `ok b` for any boolean `b`. -/
theorem C5_base_methods_raise :
    (∀ cls contents, InputFile.from_str cls contents =
        .error ("from_str has not been implemented in " ++ cls)) ∧
    (∀ cls directory, InputSet.from_directory cls directory =
        .error ("from_directory has not been implemented in " ++ cls)) ∧
    (∀ s : InputSet,
        s.validate = .error (".validate() has not been implemented in " ++ s.tyName) ∧
        ∀ b, s.validate ≠ .ok b) ∧
    (∀ g : InputGenerator, g.get_input_set =
        .error ("get_input_set has not been implemented in " ++ g.tyName)) := by
  refine ⟨fun cls contents => rfl, fun cls directory => rfl,
          fun s => ⟨rfl, fun b h => ?_⟩, fun g => rfl⟩
  exact Except.noConfusion h

/-!
## `InputSet.write_input`

The directory the caller passes is modelled as a `WState`: whether the
directory exists and the files inside it (`fname ↦ FData`).  A well-formed
state with `dirExists = false` has no files.  Errors raised by the loop
(`FileExistsError(fname)`, `FileNotFoundError` from `Path.touch` in a
missing directory) abort the call, leaving the state reached so far.
-/

structure WState : Type where
  dirExists : Bool
  files : List (String × FData)

inductive WErr : Type where
  | fileExists : String → WErr
  | fileNotFound : String → WErr
  deriving DecidableEq, Repr

/-- What one loop iteration stores for entry `fname ↦ contents`: an
`InputFile` value is written via `contents.write_file(file_path)`, any
other value via `zopen(file_path, "wt").write(str(contents))` — both write
`strOfPyVal contents` through `zopen`. -/
def writtenData (fname : String) (v : PyVal) : FData :=
  .text (strOfPyVal v) (compressionOf fname)

/-- One iteration of the `write_input` loop body:

```python
if not path.exists() and make_dir: path.mkdir(parents=True, exist_ok=True)
if file_path.exists() and not overwrite: raise FileExistsError(fname)
file_path.touch()
# write the file
```

`touch` followed by the write collapses to storing the written data. -/
def writeOne (md ow : Bool) (st : WState) (fname : String) (v : PyVal) :
    WState × Option WErr :=
  let st1 := if !st.dirExists && md then { st with dirExists := true } else st
  if (alookup st1.files fname).isSome && !ow then (st1, some (.fileExists fname))
  else if !st1.dirExists then (st1, some (.fileNotFound fname))
  else ({ st1 with files := dictInsert st1.files fname (writtenData fname v) }, none)

/-- `for fname, contents in self.inputs.items(): ...` — a raised error
propagates, keeping the state already reached. -/
def writeLoop (md ow : Bool) : WState → List (String × PyVal) → WState × Option WErr
  | st, [] => (st, none)
  | st, (f, v) :: rest =>
    match writeOne md ow st f v with
    | (st1, some e) => (st1, some e)
    | (st1, none) => writeLoop md ow st1 rest

/-- The archive filename `f"{type(self).__name__}.zip"`. -/
def zipName (tyName : String) : String := tyName ++ ".zip"

/-- The `for fname in self.inputs` loop inside `with ZipFile(...)`:
`zip_file.write(file_path)` then `os.remove(file_path)`, with
`FileNotFoundError` silently swallowed — a missing file is neither
archived nor an error.  Returns the state after the removals and the
accumulated archive members. -/
def zipLoop : WState → List String → List (String × FData) →
    WState × List (String × FData)
  | st, [], acc => (st, acc)
  | st, f :: rest, acc =>
    match alookup st.files f with
    | none => zipLoop st rest acc
    | some d => zipLoop { st with files := dictRemove st.files f } rest (acc ++ [(f, d)])

/-- `InputSet.write_input(directory, make_dir, overwrite, zip_inputs)` on
the directory state `st`.  After a successful loop, `zip_inputs=True`
creates `<TypeName>.zip` in the directory (`ZipFile(filename, "w")`
truncates/creates it; in a missing directory that open raises
`FileNotFoundError`), runs the archive loop, and on close the archive's
members are recorded at that name.  The model assumes no input filename
equals the archive's own name: the degenerate self-archiving case turns on
OS-level semantics of a file unlinked while an open handle is still
writing it, which is outside this embedding; the claims below therefore
carry that hypothesis. -/
def write_input (tyName : String) (inputs : List (String × PyVal)) (st : WState)
    (make_dir overwrite zip_inputs : Bool) : WState × Option WErr :=
  match writeLoop make_dir overwrite st inputs with
  | (st1, some e) => (st1, some e)
  | (st1, none) =>
    if zip_inputs then
      if !st1.dirExists then (st1, some (.fileNotFound (zipName tyName)))
      else
        let st2 : WState :=
          { st1 with files := dictInsert st1.files (zipName tyName) (.text "" "plain") }
        match zipLoop st2 (inputs.map Prod.fst) [] with
        | (st3, entries) =>
          ({ st3 with files := dictInsert st3.files (zipName tyName) (.archive entries) },
           none)
    else (st1, none)

/-- C10: an `InputSet` with an empty `inputs` mapping writes nothing and —
because directory creation only ever happens inside the per-entry loop —
does not create the directory even with `make_dir=True` on a missing
directory; without `zip_inputs` the filesystem state is returned
untouched, with no error. -/
theorem C10_empty_inputs_untouched (tyName : String) (st : WState) (md ow : Bool) :
    write_input tyName [] st md ow false = (st, none) := rfl

theorem writeLoop_stops_at_existing (md : Bool) (f : String) (v : PyVal) (d : FData)
    (post : List (String × PyVal)) :
    ∀ (pre : List (String × PyVal)) (st : WState),
      st.dirExists = true →
      (∀ p ∈ pre, alookup st.files p.1 = none) →
      (pre.map Prod.fst).Nodup →
      alookup st.files f = some d →
      ∃ stF : WState,
        writeLoop md false st (pre ++ (f, v) :: post) = (stF, some (.fileExists f)) ∧
        stF.dirExists = true ∧
        (∀ q, q ∉ pre.map Prod.fst → alookup stF.files q = alookup st.files q) ∧
        (∀ p ∈ pre, alookup stF.files p.1 = some (writtenData p.1 p.2)) := by
  intro pre
  induction pre with
  | nil =>
    intro st hdir hpre hnd hf
    refine ⟨st, ?_, hdir, fun q _ => rfl, fun p hp => absurd hp (List.not_mem_nil p)⟩
    have h1 : writeOne md false st f v = (st, some (.fileExists f)) := by
      unfold writeOne
      simp [hdir, hf]
    show writeLoop md false st ((f, v) :: post) = _
    simp [writeLoop, h1]
  | cons g pre' ih =>
    intro st hdir hpre hnd hf
    obtain ⟨gk, gv⟩ := g
    have hg : alookup st.files gk = none := hpre (gk, gv) (List.mem_cons_self _ _)
    have h1 : writeOne md false st gk gv =
        ({ st with files := dictInsert st.files gk (writtenData gk gv) }, none) := by
      unfold writeOne
      simp [hdir, hg]
    have hgnotin : gk ∉ pre'.map Prod.fst := by
      simp only [List.map_cons, List.nodup_cons] at hnd
      exact hnd.1
    have hnd' : (pre'.map Prod.fst).Nodup := by
      simp only [List.map_cons, List.nodup_cons] at hnd
      exact hnd.2
    have hfg : ¬ (f = gk) := by
      intro h
      rw [h, hg] at hf
      exact Option.noConfusion hf
    obtain ⟨stF, heq, hdirF, hframe, hwrites⟩ :=
      ih { st with files := dictInsert st.files gk (writtenData gk gv) }
        hdir
        (fun p hp => by
          have hpk : ¬ (p.1 = gk) := by
            intro h
            exact hgnotin (h ▸ List.mem_map.mpr ⟨p, hp, rfl⟩)
          show alookup (dictInsert st.files gk (writtenData gk gv)) p.1 = none
          rw [alookup_dictInsert, if_neg hpk]
          exact hpre p (List.mem_cons_of_mem _ hp))
        hnd'
        (by
          show alookup (dictInsert st.files gk (writtenData gk gv)) f = some d
          rw [alookup_dictInsert, if_neg hfg]
          exact hf)
    refine ⟨stF, ?_, hdirF, fun q hq => ?_, fun p hp => ?_⟩
    · show writeLoop md false st ((gk, gv) :: (pre' ++ (f, v) :: post)) = _
      simp only [writeLoop, h1]
      exact heq
    · have hq1 : ¬ (q = gk) := by
        intro h
        exact hq (by simp [h])
      have hq2 : q ∉ pre'.map Prod.fst := by
        intro h
        exact hq (by simp [h])
      rw [hframe q hq2]
      show alookup (dictInsert st.files gk (writtenData gk gv)) q = _
      rw [alookup_dictInsert, if_neg hq1]
    · rcases List.mem_cons.mp hp with rfl | hp'
      · rw [hframe gk hgnotin]
        show alookup (dictInsert st.files gk (writtenData gk gv)) gk = _
        rw [alookup_dictInsert, if_pos rfl]
      · exact hwrites p hp'

/-- C2: with `overwrite=False`, the loop fails with `FileExistsError`
naming the first entry (in insertion order) whose target already exists;
the pre-existing file's content is untouched, and every earlier entry has
already been written — the check is per file, immediately before that
file's write, not an all-or-nothing pre-check. -/
theorem C2_overwrite_false_per_file (tyName : String)
    (pre post : List (String × PyVal)) (f : String) (v : PyVal) (d : FData)
    (st0 : WState) (md zi : Bool)
    (hdir : st0.dirExists = true)
    (hpre : ∀ p ∈ pre, alookup st0.files p.1 = none)
    (hnd : (pre.map Prod.fst).Nodup)
    (hf : alookup st0.files f = some d) :
    (write_input tyName (pre ++ (f, v) :: post) st0 md false zi).2 =
        some (.fileExists f) ∧
    alookup (write_input tyName (pre ++ (f, v) :: post) st0 md false zi).1.files f =
        some d ∧
    ∀ p ∈ pre,
      alookup (write_input tyName (pre ++ (f, v) :: post) st0 md false zi).1.files p.1 =
        some (writtenData p.1 p.2) := by
  obtain ⟨stF, heq, hdirF, hframe, hwrites⟩ :=
    writeLoop_stops_at_existing md f v d post pre st0 hdir hpre hnd hf
  have hfnotin : f ∉ pre.map Prod.fst := by
    intro hm
    rcases List.mem_map.mp hm with ⟨p, hp, hpf⟩
    have h0 := hpre p hp
    rw [hpf, hf] at h0
    exact Option.noConfusion h0
  have hw : write_input tyName (pre ++ (f, v) :: post) st0 md false zi =
      (stF, some (.fileExists f)) := by
    unfold write_input
    rw [heq]
  rw [hw]
  exact ⟨rfl, by rw [hframe f hfnotin]; exact hf, fun p hp => hwrites p hp⟩

/-- C2 witness: a collection `{"a": "1", "x": "2"}` written with
`overwrite=False` into a directory that already holds `"x"`: the call
fails naming `"x"`, leaves `"x"`'s old content in place, and has already
written `"a"`. -/
theorem C2_overwrite_false_per_file_witness :
    (write_input "InputSet" ([("a", PyVal.str "1")] ++ ("x", PyVal.str "2") :: [])
        ⟨true, [("x", FData.text "old" "plain")]⟩ false false false).2 =
      some (.fileExists "x") :=
  (C2_overwrite_false_per_file "InputSet" [("a", PyVal.str "1")] [] "x"
    (PyVal.str "2") (FData.text "old" "plain")
    ⟨true, [("x", FData.text "old" "plain")]⟩ false false
    rfl
    (by
      intro p hp
      rw [List.mem_singleton] at hp
      subst hp
      rfl)
    (by decide)
    rfl).1

theorem writeLoop_all_overwrite (md : Bool) :
    ∀ (inputs : List (String × PyVal)) (st : WState),
      st.dirExists = true →
      (inputs.map Prod.fst).Nodup →
      ∃ stF : WState,
        writeLoop md true st inputs = (stF, none) ∧
        stF.dirExists = true ∧
        (∀ p ∈ inputs, alookup stF.files p.1 = some (writtenData p.1 p.2)) ∧
        (∀ q, q ∉ inputs.map Prod.fst → alookup stF.files q = alookup st.files q) := by
  intro inputs
  induction inputs with
  | nil =>
    intro st hdir _
    exact ⟨st, rfl, hdir, fun p hp => absurd hp (List.not_mem_nil p), fun q _ => rfl⟩
  | cons g rest ih =>
    intro st hdir hnd
    obtain ⟨gk, gv⟩ := g
    have h1 : writeOne md true st gk gv =
        ({ st with files := dictInsert st.files gk (writtenData gk gv) }, none) := by
      unfold writeOne
      simp [hdir]
    have hgnotin : gk ∉ rest.map Prod.fst := by
      simp only [List.map_cons, List.nodup_cons] at hnd
      exact hnd.1
    have hnd' : (rest.map Prod.fst).Nodup := by
      simp only [List.map_cons, List.nodup_cons] at hnd
      exact hnd.2
    obtain ⟨stF, heq, hdirF, hwrites, hframe⟩ :=
      ih { st with files := dictInsert st.files gk (writtenData gk gv) } hdir hnd'
    refine ⟨stF, ?_, hdirF, fun p hp => ?_, fun q hq => ?_⟩
    · show writeLoop md true st ((gk, gv) :: rest) = _
      simp only [writeLoop, h1]
      exact heq
    · rcases List.mem_cons.mp hp with rfl | hp'
      · rw [hframe gk hgnotin]
        show alookup (dictInsert st.files gk (writtenData gk gv)) gk = _
        rw [alookup_dictInsert, if_pos rfl]
      · exact hwrites p hp'
    · have hq1 : ¬ (q = gk) := by
        intro h
        exact hq (by simp [h])
      have hq2 : q ∉ rest.map Prod.fst := by
        intro h
        exact hq (by simp [h])
      rw [hframe q hq2]
      show alookup (dictInsert st.files gk (writtenData gk gv)) q = _
      rw [alookup_dictInsert, if_neg hq1]

theorem zipLoop_all_present :
    ∀ (ents : List (String × FData)) (st : WState) (acc : List (String × FData)),
      (ents.map Prod.fst).Nodup →
      (∀ p ∈ ents, alookup st.files p.1 = some p.2) →
      ∃ stF : WState,
        zipLoop st (ents.map Prod.fst) acc = (stF, acc ++ ents) ∧
        stF.dirExists = st.dirExists ∧
        (∀ f ∈ ents.map Prod.fst, alookup stF.files f = none) ∧
        (∀ q, q ∉ ents.map Prod.fst → alookup stF.files q = alookup st.files q) := by
  intro ents
  induction ents with
  | nil =>
    intro st acc _ _
    exact ⟨st, by simp [zipLoop], rfl, fun f hf => absurd hf (List.not_mem_nil f),
           fun q _ => rfl⟩
  | cons g rest ih =>
    intro st acc hnd hpresent
    obtain ⟨gk, gd⟩ := g
    have hg : alookup st.files gk = some gd := hpresent (gk, gd) (List.mem_cons_self _ _)
    have hgnotin : gk ∉ rest.map Prod.fst := by
      simp only [List.map_cons, List.nodup_cons] at hnd
      exact hnd.1
    have hnd' : (rest.map Prod.fst).Nodup := by
      simp only [List.map_cons, List.nodup_cons] at hnd
      exact hnd.2
    obtain ⟨stF, heq, hdirF, hgone, hframe⟩ :=
      ih { st with files := dictRemove st.files gk } (acc ++ [(gk, gd)]) hnd'
        (fun p hp => by
          have hpk : ¬ (p.1 = gk) := by
            intro h
            exact hgnotin (h ▸ List.mem_map.mpr ⟨p, hp, rfl⟩)
          show alookup (dictRemove st.files gk) p.1 = some p.2
          rw [alookup_dictRemove, if_neg hpk]
          exact hpresent p (List.mem_cons_of_mem _ hp))
    refine ⟨stF, ?_, hdirF, fun f hf => ?_, fun q hq => ?_⟩
    · show zipLoop st (gk :: rest.map Prod.fst) acc = _
      simp only [zipLoop, hg]
      rw [heq, List.append_assoc, List.singleton_append]
    · rcases List.mem_cons.mp hf with hf1 | hf'
      · rw [hf1, hframe gk hgnotin]
        show alookup (dictRemove st.files gk) gk = none
        rw [alookup_dictRemove, if_pos rfl]
      · exact hgone f hf'
    · have hq1 : ¬ (q = gk) := by
        intro h
        exact hq (by simp [h])
      have hq2 : q ∉ rest.map Prod.fst := by
        intro h
        exact hq (by simp [h])
      rw [hframe q hq2]
      show alookup (dictRemove st.files gk) q = _
      rw [alookup_dictRemove, if_neg hq1]

theorem zipLoop_skips_missing :
    ∀ (keys : List String) (st : WState) (acc : List (String × FData)) (f : String),
      alookup st.files f = none → f ∉ acc.map Prod.fst →
      f ∉ ((zipLoop st keys acc).2.map Prod.fst) := by
  intro keys
  induction keys with
  | nil => intro st acc f _ hacc; exact hacc
  | cons g rest ih =>
    intro st acc f hmiss hacc
    cases hg : alookup st.files g with
    | none =>
      show f ∉ (((zipLoop st (g :: rest) acc).2).map Prod.fst)
      simp only [zipLoop, hg]
      exact ih st acc f hmiss hacc
    | some gd =>
      have hfg : ¬ (f = g) := by
        intro h
        rw [h, hg] at hmiss
        exact Option.noConfusion hmiss
      show f ∉ (((zipLoop st (g :: rest) acc).2).map Prod.fst)
      simp only [zipLoop, hg]
      refine ih { st with files := dictRemove st.files g } (acc ++ [(g, gd)]) f ?_ ?_
      · show alookup (dictRemove st.files g) f = none
        rw [alookup_dictRemove, if_neg hfg]
        exact hmiss
      · intro hm
        rw [List.map_append] at hm
        rcases List.mem_append.mp hm with hm' | hm'
        · exact hacc hm'
        · rcases List.mem_map.mp hm' with ⟨p, hp, hpf⟩
          rw [List.mem_singleton] at hp
          subst hp
          exact hfg hpf.symm

theorem keys_map_written (inputs : List (String × PyVal)) :
    (inputs.map (fun p => (p.1, writtenData p.1 p.2))).map Prod.fst =
      inputs.map Prod.fst := by
  induction inputs with
  | nil => rfl
  | cons p rest ih => simp [ih]

/-- C3: `write_input` with `zip_inputs=True` first writes every entry,
then leaves a single `<TypeName>.zip` in the directory whose members are
exactly the written files (same names, same contents, in insertion
order), and removes every loose written file; a file found missing at
archive time is silently skipped — neither archived nor an error.  Proved
for distinct filenames none of which equals the archive's own name (see
`write_input` on the self-archiving degenerate case). -/
theorem C3_archive_zip (tyName : String) (inputs : List (String × PyVal))
    (st0 : WState) (md : Bool)
    (hdir : st0.dirExists = true)
    (hnd : (inputs.map Prod.fst).Nodup)
    (hzn : zipName tyName ∉ inputs.map Prod.fst) :
    ((write_input tyName inputs st0 md true true).2 = none ∧
     alookup (write_input tyName inputs st0 md true true).1.files (zipName tyName) =
       some (.archive (inputs.map (fun p => (p.1, writtenData p.1 p.2)))) ∧
     ∀ f ∈ inputs.map Prod.fst,
       alookup (write_input tyName inputs st0 md true true).1.files f = none) ∧
    (∀ (st : WState) (keys : List String) (acc : List (String × FData)) (f : String),
       alookup st.files f = none → f ∉ acc.map Prod.fst →
       f ∉ ((zipLoop st keys acc).2.map Prod.fst)) := by
  refine ⟨?_, fun st keys acc f => zipLoop_skips_missing keys st acc f⟩
  obtain ⟨st1, heq1, hdir1, hw1, hframe1⟩ := writeLoop_all_overwrite md inputs st0 hdir hnd
  have hentsPresent : ∀ p ∈ inputs.map (fun p => (p.1, writtenData p.1 p.2)),
      alookup (dictInsert st1.files (zipName tyName) (FData.text "" "plain")) p.1 =
        some p.2 := by
    intro p hp
    rcases List.mem_map.mp hp with ⟨q, hq, hqp⟩
    have hq1 : q.1 ∈ inputs.map Prod.fst := List.mem_map.mpr ⟨q, hq, rfl⟩
    have hqzn : ¬ (q.1 = zipName tyName) := by
      intro h
      exact hzn (h ▸ hq1)
    rw [← hqp]
    show alookup (dictInsert st1.files (zipName tyName) (FData.text "" "plain")) q.1 =
      some (writtenData q.1 q.2)
    rw [alookup_dictInsert, if_neg hqzn]
    exact hw1 q hq
  have hndents : ((inputs.map (fun p => (p.1, writtenData p.1 p.2))).map Prod.fst).Nodup := by
    rw [keys_map_written]
    exact hnd
  obtain ⟨st3, heq3, hdir3, hgone3, hframe3⟩ :=
    zipLoop_all_present (inputs.map (fun p => (p.1, writtenData p.1 p.2)))
      { st1 with files := dictInsert st1.files (zipName tyName) (FData.text "" "plain") }
      [] hndents hentsPresent
  have heq3' : zipLoop
      { st1 with files := dictInsert st1.files (zipName tyName) (FData.text "" "plain") }
      (inputs.map Prod.fst) [] =
      (st3, inputs.map (fun p => (p.1, writtenData p.1 p.2))) := by
    rw [← keys_map_written inputs, heq3, List.nil_append]
  rw [hdir1] at heq3'
  have hwi : write_input tyName inputs st0 md true true =
      ({ st3 with files := dictInsert st3.files (zipName tyName) (FData.archive (inputs.map (fun p => (p.1, writtenData p.1 p.2)))) }, none) := by
    unfold write_input
    rw [heq1]
    simp only [hdir1, Bool.not_true, Bool.false_eq_true, if_false, if_true, heq3']
  rw [hwi]
  refine ⟨rfl, ?_, fun f hf => ?_⟩
  · show alookup (dictInsert st3.files (zipName tyName) (FData.archive (inputs.map (fun p => (p.1, writtenData p.1 p.2))))) (zipName tyName) = _
    rw [alookup_dictInsert, if_pos rfl]
  · have hfzn : ¬ (f = zipName tyName) := by
      intro h
      exact hzn (h ▸ hf)
    show alookup (dictInsert st3.files (zipName tyName) (FData.archive (inputs.map (fun p => (p.1, writtenData p.1 p.2))))) f = none
    rw [alookup_dictInsert, if_neg hfzn]
    refine hgone3 f ?_
    rw [keys_map_written]
    exact hf

/-- C3 witness: archiving a one-file collection leaves no error. -/
theorem C3_archive_zip_witness :
    (write_input "InputSet" [("INCAR", PyVal.str "abc")] ⟨true, []⟩ false true true).2 =
      none :=
  (C3_archive_zip "InputSet" [("INCAR", PyVal.str "abc")] ⟨true, []⟩ false
    rfl (by decide) (by decide)).1.1

/-!
## `InputSet.__deepcopy__` and `copy.deepcopy`

`__deepcopy__` allocates an empty new instance, registers it in the memo
under the original's identity (`memo[id(self)] = new_instance`) *before*
copying any field, then `setattr`s each `__dict__` entry to
`copy.deepcopy(val, memo)`.  The object graph is embedded as a heap of
numbered objects (`id(x) ↦ fields`); a field value is either an immutable
primitive (returned as-is by `copy.deepcopy`) or a reference to another
heap object.  `copy.deepcopy` on a reference first consults the memo; on
a miss it recurses through the object's `__deepcopy__`.  The recursion is
fuelled: the proofs show the fuel `|heap|` always suffices, which is
exactly the claim that the memo prevents infinite recursion on cyclic
graphs. -/

inductive HVal : Type where
  | prim : String → HVal
  | ref : Nat → HVal
  deriving DecidableEq, Repr

abbrev Obj := List (String × HVal)

/-- State threaded through a deep copy: the objects allocated so far, the
memo `id(original) ↦ id(copy)`, and the next unused identity. -/
structure DCState : Type where
  newHeap : List (Nat × Obj)
  memo : List (Nat × Nat)
  fresh : Nat
  deriving DecidableEq, Repr

mutual

/-- `copy.deepcopy(v, memo)` over the heap `oldHeap`. -/
def dcVal (oldHeap : List (Nat × Obj)) : Nat → HVal → DCState →
    Option (HVal × DCState)
  | _, .prim s, st => some (.prim s, st)
  | fuel, .ref i, st =>
    match alookup st.memo i with
    | some j => some (.ref j, st)
    | none =>
      match fuel with
      | 0 => none
      | fuel' + 1 =>
        match alookup oldHeap i with
        | none => none
        | some fields =>
          let j := st.fresh
          match dcFields oldHeap fuel' fields ⟨(j, []) :: st.newHeap, (i, j) :: st.memo, j + 1⟩ with
          | none => none
          | some (newFields, st2) =>
            some (.ref j, { st2 with newHeap := dictInsert st2.newHeap j newFields })
termination_by fuel v st => (fuel, 0)

/-- The `for key, val in self.__dict__.items(): setattr(new_instance, key,
copy.deepcopy(val, memo))` loop of `__deepcopy__`. -/
def dcFields (oldHeap : List (Nat × Obj)) : Nat → List (String × HVal) → DCState →
    Option (List (String × HVal) × DCState)
  | _, [], st => some ([], st)
  | fuel, (k, v) :: rest, st =>
    match dcVal oldHeap fuel v st with
    | none => none
    | some (v', st') =>
      match dcFields oldHeap fuel rest st' with
      | none => none
      | some (vs, st'') => some ((k, v') :: vs, st'')
termination_by fuel l st => (fuel, l.length + 1)

end

/-- A value's references land inside the heap. -/
def refOkB (oldHeap : List (Nat × Obj)) : HVal → Bool
  | .prim _ => true
  | .ref i => (alookup oldHeap i).isSome

/-- Every reference stored in any heap object lands inside the heap:
the object graph is self-contained (it may be cyclic). -/
def heapClosed (oldHeap : List (Nat × Obj)) : Bool :=
  oldHeap.all (fun p => p.2.all (fun q => refOkB oldHeap q.2))

/-- The number of heap objects not yet registered in the memo — the
quantity the memo mechanism drives to zero. -/
def uncopied (oldHeap : List (Nat × Obj)) (memo : List (Nat × Nat)) : Nat :=
  ((oldHeap.map Prod.fst).filter (fun i => (alookup memo i).isNone)).length

/-- An identity unused by the original graph, standing for the fresh
machine addresses CPython hands out to the copies. -/
def startFresh (oldHeap : List (Nat × Obj)) : Nat :=
  (oldHeap.map Prod.fst).foldr max 0 + 1

/-- Invariant relating a copy state to any later copy state: the memo
only grows (by prepending), identities are handed out monotonically,
allocated objects persist, newly appearing objects carry fresh
identities, every allocation registers exactly one memo entry, and
duplicate-free memo keys stay duplicate-free. -/
def StepOK (st st' : DCState) : Prop :=
  (∃ ext, st'.memo = ext ++ st.memo) ∧
  st.fresh ≤ st'.fresh ∧
  (∀ j, j ∈ st.newHeap.map Prod.fst → j ∈ st'.newHeap.map Prod.fst) ∧
  (∀ j, j ∈ st'.newHeap.map Prod.fst → j ∈ st.newHeap.map Prod.fst ∨ st.fresh ≤ j) ∧
  st'.fresh + st.memo.length = st.fresh + st'.memo.length ∧
  ((st.memo.map Prod.fst).Nodup → (st'.memo.map Prod.fst).Nodup)

theorem StepOK.refl (st : DCState) : StepOK st st :=
  ⟨⟨[], rfl⟩, le_refl _, fun _ h => h, fun j h => Or.inl h, rfl, fun h => h⟩

theorem StepOK.trans {a b c : DCState} (h1 : StepOK a b) (h2 : StepOK b c) :
    StepOK a c := by
  obtain ⟨⟨e1, he1⟩, hf1, hk1, hn1, hc1, hd1⟩ := h1
  obtain ⟨⟨e2, he2⟩, hf2, hk2, hn2, hc2, hd2⟩ := h2
  refine ⟨⟨e2 ++ e1, by rw [he2, he1, List.append_assoc]⟩, le_trans hf1 hf2,
          fun j hj => hk2 j (hk1 j hj), fun j hj => ?_, by omega, fun h => hd2 (hd1 h)⟩
  rcases hn2 j hj with h' | h'
  · exact hn1 j h'
  · exact Or.inr (le_trans hf1 h')

theorem alookup_mem {κ α : Type} [DecidableEq κ] (d : List (κ × α)) (q : κ) (v : α)
    (h : alookup d q = some v) : (q, v) ∈ d := by
  induction d with
  | nil => exact Option.noConfusion h
  | cons p rest ih =>
    obtain ⟨k, w⟩ := p
    by_cases hq : q = k
    · simp only [alookup, if_pos hq] at h
      cases h
      simp [hq]
    · simp only [alookup, if_neg hq] at h
      exact List.mem_cons_of_mem _ (ih h)

theorem alookup_isSome_mem {κ α : Type} [DecidableEq κ] (d : List (κ × α)) (q : κ)
    (h : (alookup d q).isSome) : q ∈ d.map Prod.fst := by
  by_contra hmem
  rw [alookup_eq_none d q hmem] at h
  exact Bool.noConfusion h

theorem filter_length_mono {α : Type} (l : List α) (p q : α → Bool)
    (h : ∀ x, p x = true → q x = true) :
    (l.filter p).length ≤ (l.filter q).length := by
  induction l with
  | nil => exact le_refl _
  | cons a rest ih =>
    cases hp : p a with
    | true =>
      simp only [List.filter_cons, hp, h a hp, if_true]
      exact Nat.succ_le_succ ih
    | false =>
      cases hq : q a with
      | true =>
        simp only [List.filter_cons, hp, hq]
        exact le_trans ih (Nat.le_succ _)
      | false =>
        simp only [List.filter_cons, hp, hq]
        exact ih

theorem filter_congr_mem {α : Type} (l : List α) (p q : α → Bool)
    (h : ∀ x ∈ l, p x = q x) : l.filter p = l.filter q := by
  induction l with
  | nil => rfl
  | cons a rest ih =>
    have ha := h a (List.mem_cons_self _ _)
    have hrest := ih (fun x hx => h x (List.mem_cons_of_mem _ hx))
    simp only [List.filter_cons, ha, hrest]

/-- Extending the memo never increases the count of uncopied objects. -/
theorem uncopied_le_of_extension (oldHeap : List (Nat × Obj))
    (m ext : List (Nat × Nat)) :
    uncopied oldHeap (ext ++ m) ≤ uncopied oldHeap m := by
  refine filter_length_mono _ _ _ (fun x hx => ?_)
  rw [Option.isNone_iff_eq_none] at hx ⊢
  rw [alookup_append] at hx
  cases he : alookup ext x with
  | none => rw [he] at hx; exact hx
  | some w => rw [he] at hx; exact Option.noConfusion hx

/-- Registering an unregistered heap object in the memo decreases the
uncopied count by exactly one. -/
theorem uncopied_cons (oldHeap : List (Nat × Obj)) (memo : List (Nat × Nat))
    (i j : Nat) (hnd : (oldHeap.map Prod.fst).Nodup)
    (hi : i ∈ oldHeap.map Prod.fst) (hm : alookup memo i = none) :
    uncopied oldHeap ((i, j) :: memo) + 1 = uncopied oldHeap memo := by
  unfold uncopied
  have key : ∀ (keys : List Nat), keys.Nodup → i ∈ keys →
      (keys.filter (fun x => (alookup ((i, j) :: memo) x).isNone)).length + 1 =
      (keys.filter (fun x => (alookup memo x).isNone)).length := by
    intro keys
    induction keys with
    | nil => intro _ hi'; exact absurd hi' (List.not_mem_nil i)
    | cons a rest ih =>
      intro hnd' hi'
      rw [List.nodup_cons] at hnd'
      by_cases ha : a = i
      · subst ha
        have hp' : (alookup ((a, j) :: memo) a).isNone = false := by
          simp [alookup]
        have hp : (alookup memo a).isNone = true := by
          rw [hm]; rfl
        have hcong : rest.filter (fun x => (alookup ((a, j) :: memo) x).isNone) =
            rest.filter (fun x => (alookup memo x).isNone) := by
          refine filter_congr_mem _ _ _ (fun x hx => ?_)
          have hxa : ¬ (x = a) := by
            intro h
            exact hnd'.1 (h ▸ hx)
          simp [alookup, hxa]
        simp only [List.filter_cons, hp', hp, hcong]
        simp
      · have hi'' : i ∈ rest := by
          rcases List.mem_cons.mp hi' with h | h
          · exact absurd h.symm ha
          · exact h
        have hpp : (alookup ((i, j) :: memo) a).isNone = (alookup memo a).isNone := by
          have hai : ¬ (a = i) := ha
          simp [alookup, hai]
        cases hval : (alookup memo a).isNone with
        | true =>
          simp only [List.filter_cons, hpp, hval, if_true, List.length_cons]
          have := ih hnd'.2 hi''
          omega
        | false =>
          simp only [List.filter_cons, hpp, hval, if_false]
          exact ih hnd'.2 hi''
  exact key (oldHeap.map Prod.fst) hnd hi

theorem dcFields_stepOK_of (oldHeap : List (Nat × Obj)) (fuel : Nat)
    (hA : ∀ (v : HVal) (st : DCState) (r : HVal × DCState),
        dcVal oldHeap fuel v st = some r → StepOK st r.2) :
    ∀ (l : List (String × HVal)) (st : DCState)
      (r : List (String × HVal) × DCState),
      dcFields oldHeap fuel l st = some r → StepOK st r.2 := by
  intro l
  induction l with
  | nil =>
    intro st r h
    simp only [dcFields] at h
    cases h
    exact StepOK.refl st
  | cons p rest ih =>
    intro st r h
    obtain ⟨k, v⟩ := p
    simp only [dcFields] at h
    cases h1 : dcVal oldHeap fuel v st with
    | none =>
        simp only [h1] at h
        exact Option.noConfusion h
    | some pr =>
      obtain ⟨v', st'⟩ := pr
      simp only [h1] at h
      cases h2 : dcFields oldHeap fuel rest st' with
      | none =>
        simp only [h2] at h
        exact Option.noConfusion h
      | some pr2 =>
        simp only [h2] at h
        obtain ⟨vs, st''⟩ := pr2
        cases h
        exact StepOK.trans (hA v st (v', st') h1) (ih st' (vs, st'') h2)

theorem dc_stepOK (oldHeap : List (Nat × Obj)) :
    ∀ (fuel : Nat) (v : HVal) (st : DCState) (r : HVal × DCState),
      dcVal oldHeap fuel v st = some r → StepOK st r.2 := by
  intro fuel
  induction fuel with
  | zero =>
    intro v st r h
    cases v with
    | prim s =>
      simp only [dcVal] at h
      cases h
      exact StepOK.refl st
    | ref i =>
      simp only [dcVal] at h
      cases hm : alookup st.memo i with
      | some j =>
        simp only [hm] at h
        cases h
        exact StepOK.refl st
      | none =>
        simp only [hm] at h
        exact Option.noConfusion h
  | succ fuel' ih =>
    intro v st r h
    cases v with
    | prim s =>
      simp only [dcVal] at h
      cases h
      exact StepOK.refl st
    | ref i =>
      simp only [dcVal] at h
      cases hm : alookup st.memo i with
      | some j =>
        simp only [hm] at h
        cases h
        exact StepOK.refl st
      | none =>
        simp only [hm] at h
        cases ho : alookup oldHeap i with
        | none =>
        simp only [ho] at h
        exact Option.noConfusion h
        | some fields =>
          simp only [ho] at h
          cases hF : dcFields oldHeap fuel' fields
              ⟨(st.fresh, []) :: st.newHeap, (i, st.fresh) :: st.memo, st.fresh + 1⟩ with
          | none =>
        simp only [hF] at h
        exact Option.noConfusion h
          | some pr =>
            simp only [hF] at h
            obtain ⟨newFields, st2⟩ := pr
            cases h
            have step1 : StepOK st
                ⟨(st.fresh, []) :: st.newHeap, (i, st.fresh) :: st.memo, st.fresh + 1⟩ := by
              refine ⟨⟨[(i, st.fresh)], rfl⟩, Nat.le_succ _, ?_, ?_, ?_, ?_⟩
              · intro j hj
                rw [List.map_cons]
                exact List.mem_cons_of_mem _ hj
              · intro j hj
                rw [List.map_cons] at hj
                rcases List.mem_cons.mp hj with h' | h'
                · exact Or.inr (le_of_eq h'.symm)
                · exact Or.inl h'
              · show st.fresh + 1 + st.memo.length = st.fresh + ((i, st.fresh) :: st.memo).length
                rw [List.length_cons]
                omega
              · intro hnodup
                rw [List.map_cons]
                exact List.nodup_cons.mpr ⟨alookup_none_not_mem _ _ hm, hnodup⟩
            have step2 : StepOK
                ⟨(st.fresh, []) :: st.newHeap, (i, st.fresh) :: st.memo, st.fresh + 1⟩
                st2 :=
              dcFields_stepOK_of oldHeap fuel' ih fields _ (newFields, st2) hF
            have hfreshmem : st.fresh ∈ st2.newHeap.map Prod.fst := by
              obtain ⟨-, -, hk2, -, -, -⟩ := step2
              refine hk2 st.fresh ?_
              rw [List.map_cons]
              exact List.mem_cons_self _ _
            have step3 : StepOK st2
                { st2 with newHeap := dictInsert st2.newHeap st.fresh newFields } := by
              refine ⟨⟨[], rfl⟩, le_refl _, ?_, ?_, rfl, fun h' => h'⟩
              · intro j hj
                show j ∈ (dictInsert st2.newHeap st.fresh newFields).map Prod.fst
                rw [keys_dictInsert]
                by_cases hk : hasKey st2.newHeap st.fresh
                · rw [if_pos hk]
                  exact hj
                · rw [if_neg hk]
                  exact List.mem_append_left _ hj
              · intro j hj
                have hj' : j ∈ (dictInsert st2.newHeap st.fresh newFields).map Prod.fst := hj
                rw [keys_dictInsert] at hj'
                by_cases hk : hasKey st2.newHeap st.fresh
                · rw [if_pos hk] at hj'
                  exact Or.inl hj'
                · rw [if_neg hk] at hj'
                  rcases List.mem_append.mp hj' with h' | h'
                  · exact Or.inl h'
                  · rw [List.mem_singleton] at h'
                    exact Or.inl (h' ▸ hfreshmem)
            exact StepOK.trans (StepOK.trans step1 step2) step3

theorem dcFields_success_of (oldHeap : List (Nat × Obj)) (fuel : Nat)
    (hA : ∀ (v : HVal) (st : DCState), refOkB oldHeap v = true →
        uncopied oldHeap st.memo ≤ fuel → (dcVal oldHeap fuel v st).isSome = true) :
    ∀ (l : List (String × HVal)) (st : DCState),
      (∀ p ∈ l, refOkB oldHeap p.2 = true) →
      uncopied oldHeap st.memo ≤ fuel →
      (dcFields oldHeap fuel l st).isSome = true := by
  intro l
  induction l with
  | nil =>
    intro st _ _
    simp [dcFields]
  | cons p rest ih =>
    intro st hl hu
    obtain ⟨k, v⟩ := p
    have h1 : (dcVal oldHeap fuel v st).isSome = true :=
      hA v st (hl (k, v) (List.mem_cons_self _ _)) hu
    cases hval : dcVal oldHeap fuel v st with
    | none =>
      rw [hval] at h1
      exact Bool.noConfusion h1
    | some pr =>
      obtain ⟨v', st'⟩ := pr
      obtain ⟨⟨ext, hext⟩, -, -, -, -, -⟩ := dc_stepOK oldHeap fuel v st (v', st') hval
      have hu' : uncopied oldHeap st'.memo ≤ fuel := by
        rw [hext]
        exact le_trans (uncopied_le_of_extension oldHeap st.memo ext) hu
      have h2 := ih st' (fun q hq => hl q (List.mem_cons_of_mem _ hq)) hu'
      cases hF : dcFields oldHeap fuel rest st' with
      | none =>
        rw [hF] at h2
        exact Bool.noConfusion h2
      | some pr2 =>
        obtain ⟨vs, st''⟩ := pr2
        simp [dcFields, hval, hF]

theorem dc_success (oldHeap : List (Nat × Obj))
    (hnd : (oldHeap.map Prod.fst).Nodup) (hcl : heapClosed oldHeap = true) :
    ∀ (fuel : Nat) (v : HVal) (st : DCState), refOkB oldHeap v = true →
      uncopied oldHeap st.memo ≤ fuel → (dcVal oldHeap fuel v st).isSome = true := by
  intro fuel
  induction fuel with
  | zero =>
    intro v st hv hu
    cases v with
    | prim s => simp [dcVal]
    | ref i =>
      cases hm : alookup st.memo i with
      | some j => simp [dcVal, hm]
      | none =>
        exfalso
        have hi : i ∈ oldHeap.map Prod.fst :=
          alookup_isSome_mem oldHeap i (by simpa [refOkB] using hv)
        have h1 : i ∈ (oldHeap.map Prod.fst).filter
            (fun x => (alookup st.memo x).isNone) :=
          List.mem_filter.mpr ⟨hi, by simp [hm]⟩
        have h2 : 0 < uncopied oldHeap st.memo := by
          unfold uncopied
          exact List.length_pos.mpr (List.ne_nil_of_mem h1)
        omega
  | succ fuel' ih =>
    intro v st hv hu
    cases v with
    | prim s => simp [dcVal]
    | ref i =>
      cases hm : alookup st.memo i with
      | some j => simp [dcVal, hm]
      | none =>
        have hoSome : (alookup oldHeap i).isSome = true := by simpa [refOkB] using hv
        cases ho : alookup oldHeap i with
        | none =>
          rw [ho] at hoSome
          exact Bool.noConfusion hoSome
        | some fields =>
          have hi : i ∈ oldHeap.map Prod.fst := alookup_isSome_mem oldHeap i hoSome
          have hflds : ∀ p ∈ fields, refOkB oldHeap p.2 = true := by
            have hmem : (i, fields) ∈ oldHeap := alookup_mem oldHeap i fields ho
            have hall := (List.all_eq_true.mp hcl) (i, fields) hmem
            intro p hp
            exact (List.all_eq_true.mp hall) p hp
          have hu1 : uncopied oldHeap ((i, st.fresh) :: st.memo) ≤ fuel' := by
            have := uncopied_cons oldHeap st.memo i st.fresh hnd hi hm
            omega
          have hF : (dcFields oldHeap fuel' fields
              ⟨(st.fresh, []) :: st.newHeap, (i, st.fresh) :: st.memo, st.fresh + 1⟩).isSome = true :=
            dcFields_success_of oldHeap fuel' ih fields _ hflds hu1
          cases hFv : dcFields oldHeap fuel' fields
              ⟨(st.fresh, []) :: st.newHeap, (i, st.fresh) :: st.memo, st.fresh + 1⟩ with
          | none =>
            rw [hFv] at hF
            exact Bool.noConfusion hF
          | some pr =>
            obtain ⟨newFields, st2⟩ := pr
            simp [dcVal, hm, ho, hFv]

theorem le_foldr_max (l : List Nat) (x : Nat) (h : x ∈ l) : x ≤ l.foldr max 0 := by
  induction l with
  | nil => exact absurd h (List.not_mem_nil x)
  | cons a rest ih =>
    rcases List.mem_cons.mp h with h' | h'
    · rw [h']
      exact le_max_left _ _
    · exact le_trans (ih h') (le_max_right _ _)

theorem uncopied_empty_memo (oldHeap : List (Nat × Obj)) :
    uncopied oldHeap [] = oldHeap.length := by
  unfold uncopied
  have key : ∀ l : List Nat,
      (l.filter (fun x => (alookup ([] : List (Nat × Nat)) x).isNone)).length =
        l.length := by
    intro l
    induction l with
    | nil => rfl
    | cons a rest ih => simp [List.filter_cons, alookup, ih]
  rw [key, List.length_map]

/-- C6: deep copying over any self-contained object graph — shared or
cyclic references included — terminates with fuel `|heap|`, because the
copy is registered in the memo before its fields are copied; exactly one
new object is allocated per memo entry, the memo maps each visited
original to a single copy (no duplication of shared substructure), and
every allocated identity lies outside the original heap, so mutating
nested content reachable from the copy cannot alter any original
object. -/
theorem C6_deepcopy (oldHeap : List (Nat × Obj)) (v : HVal)
    (hnd : (oldHeap.map Prod.fst).Nodup)
    (hcl : heapClosed oldHeap = true)
    (hv : refOkB oldHeap v = true) :
    ∃ r : HVal × DCState,
      dcVal oldHeap oldHeap.length v ⟨[], [], startFresh oldHeap⟩ = some r ∧
      r.2.fresh = startFresh oldHeap + r.2.memo.length ∧
      (r.2.memo.map Prod.fst).Nodup ∧
      ∀ j ∈ r.2.newHeap.map Prod.fst, j ∉ oldHeap.map Prod.fst := by
  have hu : uncopied oldHeap (⟨[], [], startFresh oldHeap⟩ : DCState).memo ≤
      oldHeap.length := le_of_eq (uncopied_empty_memo oldHeap)
  have hs := dc_success oldHeap hnd hcl oldHeap.length v ⟨[], [], startFresh oldHeap⟩ hv hu
  cases hr : dcVal oldHeap oldHeap.length v ⟨[], [], startFresh oldHeap⟩ with
  | none =>
    rw [hr] at hs
    exact Bool.noConfusion hs
  | some r =>
    obtain ⟨-, -, -, hnew, hcount, hdup⟩ :=
      dc_stepOK oldHeap oldHeap.length v ⟨[], [], startFresh oldHeap⟩ r hr
    refine ⟨r, rfl, ?_, hdup List.nodup_nil, fun j hj hjold => ?_⟩
    · have : r.2.fresh + ([] : List (Nat × Nat)).length =
          startFresh oldHeap + r.2.memo.length := hcount
      simpa using this
    · rcases hnew j hj with h' | h'
      · exact absurd h' (List.not_mem_nil j)
      · have h'' : startFresh oldHeap ≤ j := h'
        have hlt : j < startFresh oldHeap :=
          Nat.lt_succ_of_le (le_foldr_max _ j hjold)
        omega

/-- C6 witness: a one-object graph whose single field refers back to the
object itself — the cyclic case — is deep-copied with fuel 1. -/
theorem C6_deepcopy_witness :
    (dcVal [(0, [("self", HVal.ref 0)])] 1 (HVal.ref 0) ⟨[], [], 1⟩).isSome = true := by
  obtain ⟨r, hr, -, -, -⟩ :=
    C6_deepcopy [(0, [("self", HVal.ref 0)])] (HVal.ref 0)
      (by decide) (by decide) (by decide)
  exact Option.isSome_iff_exists.mpr ⟨r, hr⟩

end PmgCore
